import Mathlib

/-!
Verification of the `xsv search` command (`src/cmd/search.rs`): the
predicate/selection evaluation engine and the streaming match loop.

The embedding models:
* the external `regex::bytes` engine as a byte-level regular-expression
  AST with a Brzozowski-derivative matcher (`fullMatch` is the anchored
  matcher; `isMatch` is the unanchored substring search that
  `Regex::is_match` performs), together with an executable pattern
  parser that can fail on malformed patterns (mirroring
  `RegexBuilder::build` returning `Err`), and the `case_insensitive`
  builder option as an AST transformation;
* Rust's lexicographic `Ord` on `&[u8]` as `cmpBytes`;
* the `Filter` enum and `Filter::apply` from the source;
* the `run` function's filter selection, header handling and row loop as
  the pure functions `selectFilter`, `searchLoop` and `searchRun` over a
  structure `SearchArgs` mirroring the `Args` struct.
-/

namespace Xsv

/-- Byte-level regular expression AST: the fragment of `regex::bytes`
syntax used by the model (literals, `.`, alternation, concatenation,
Kleene star, plus a `fail` regex produced by derivatives). -/
inductive RegexAst : Type
  | fail : RegexAst
  | eps : RegexAst
  | dot : RegexAst
  | chr : Nat → RegexAst
  | alt : RegexAst → RegexAst → RegexAst
  | cat : RegexAst → RegexAst → RegexAst
  | star : RegexAst → RegexAst
deriving DecidableEq, Repr

/-- Whether the regex accepts the empty byte string. -/
def nullable : RegexAst → Bool
  | .fail => false
  | .eps => true
  | .dot => false
  | .chr _ => false
  | .alt a b => nullable a || nullable b
  | .cat a b => nullable a && nullable b
  | .star _ => true

/-- Brzozowski derivative of a regex with respect to one byte.
`.` matches any byte except newline (byte 10), as in the default
`regex` dialect. -/
def rderiv : RegexAst → Nat → RegexAst
  | .fail, _ => .fail
  | .eps, _ => .fail
  | .dot, c => if c = 10 then .fail else .eps
  | .chr d, c => if c = d then .eps else .fail
  | .alt a b, c => .alt (rderiv a c) (rderiv b c)
  | .cat a b, c =>
      if nullable a then .alt (.cat (rderiv a c) b) (rderiv b c)
      else .cat (rderiv a c) b
  | .star a, c => .cat (rderiv a c) (.star a)

/-- Anchored matcher: the regex matches the whole byte string. -/
def fullMatch (r : RegexAst) (s : List Nat) : Bool :=
  nullable (s.foldl rderiv r)

/-- The regex matches some prefix of the byte string. -/
def matchHere : RegexAst → List Nat → Bool
  | r, [] => nullable r
  | r, c :: rest => nullable r || matchHere (rderiv r c) rest

/-- Unanchored search: the regex matches somewhere inside the byte
string.  This is the semantics of `Regex::is_match`. -/
def isMatch : RegexAst → List Nat → Bool
  | r, [] => nullable r
  | r, c :: rest => matchHere r (c :: rest) || isMatch r rest

/-- Metacharacters of the modelled pattern syntax. -/
def isMeta (c : Nat) : Bool :=
  c = 40 || c = 41 || c = 42 || c = 43 || c = 46 || c = 63 || c = 92 || c = 124

/-- Consume trailing repetition operators `*`, `+`, `?` after an atom. -/
def parseStars : RegexAst → List Nat → RegexAst × List Nat
  | r, 42 :: rest => parseStars (.star r) rest
  | r, 43 :: rest => parseStars (.cat r (.star r)) rest
  | r, 63 :: rest => parseStars (.alt r .eps) rest
  | r, s => (r, s)

mutual

/-- Parse an alternation (`a|b|c`).  Fuel-indexed recursive descent;
`none` is a parse failure. -/
def parseAlt : Nat → List Nat → Option (RegexAst × List Nat)
  | 0, _ => none
  | fuel + 1, s =>
      match parseConcat fuel s with
      | none => none
      | some (r, rest) => parseAltRest fuel r rest

/-- Parse the remaining `|`-separated branches of an alternation. -/
def parseAltRest : Nat → RegexAst → List Nat → Option (RegexAst × List Nat)
  | 0, _, _ => none
  | fuel + 1, acc, s =>
      match s with
      | 124 :: rest =>
          match parseConcat fuel rest with
          | none => none
          | some (r, rest2) => parseAltRest fuel (.alt acc r) rest2
      | _ => some (acc, s)

/-- Parse a concatenation of postfix-repeated atoms. -/
def parseConcat : Nat → List Nat → Option (RegexAst × List Nat)
  | 0, _ => none
  | fuel + 1, s => parseConcatRest fuel .eps s

/-- Parse the remaining atoms of a concatenation, accumulating. -/
def parseConcatRest : Nat → RegexAst → List Nat → Option (RegexAst × List Nat)
  | 0, _, _ => none
  | fuel + 1, acc, s =>
      match s with
      | [] => some (acc, [])
      | c :: _ =>
          if c = 41 || c = 124 then some (acc, s)
          else
            match parsePostfix fuel s with
            | none => none
            | some (r, rest) => parseConcatRest fuel (.cat acc r) rest

/-- Parse one atom together with its postfix repetition operators. -/
def parsePostfix : Nat → List Nat → Option (RegexAst × List Nat)
  | 0, _ => none
  | fuel + 1, s =>
      match parseAtom fuel s with
      | none => none
      | some (r, rest) => some (parseStars r rest)

/-- Parse one atom: a group `( … )`, `.`, an escaped byte, or a literal
byte.  A bare metacharacter (for example an unmatched `(` or a dangling
`*`) is a parse failure, as in the real pattern syntax. -/
def parseAtom : Nat → List Nat → Option (RegexAst × List Nat)
  | 0, _ => none
  | fuel + 1, s =>
      match s with
      | [] => none
      | 40 :: rest =>
          match parseAlt fuel rest with
          | some (r, 41 :: rest2) => some (r, rest2)
          | _ => none
      | 46 :: rest => some (.dot, rest)
      | 92 :: c :: rest => some (.chr c, rest)
      | 92 :: [] => none
      | c :: rest => if isMeta c then none else some (.chr c, rest)

end

/-- Parse a whole pattern; the pattern is malformed when the grammar
rejects it or leaves unconsumed input.  Models `Regex::new` /
`RegexBuilder::build` succeeding or failing. -/
def parseRegex (s : List Nat) : Option RegexAst :=
  match parseAlt (8 * s.length + 8) s with
  | some (r, []) => some r
  | _ => none

/-- Rewrite every ASCII letter literal to match both cases: the effect
of `RegexBuilder::case_insensitive(true)` on the modelled fragment. -/
def applyCI : RegexAst → RegexAst
  | .fail => .fail
  | .eps => .eps
  | .dot => .dot
  | .chr c =>
      if 65 ≤ c ∧ c ≤ 90 then .alt (.chr c) (.chr (c + 32))
      else if 97 ≤ c ∧ c ≤ 122 then .alt (.chr c) (.chr (c - 32))
      else .chr c
  | .alt a b => .alt (applyCI a) (applyCI b)
  | .cat a b => .cat (applyCI a) (applyCI b)
  | .star a => .star (applyCI a)

/-- `RegexBuilder::new(pattern).case_insensitive(ci).build()`: parse the
pattern and bake case-insensitivity into the compiled regex.  Parse
errors do not depend on the case-insensitivity option. -/
def compileRegex (s : List Nat) (ci : Bool) : Option RegexAst :=
  (parseRegex s).map (fun r => if ci then applyCI r else r)

/-- A field is a byte string; a row is an ordered sequence of fields,
as produced by the external `csv::ByteRecord` reader. -/
abbrev Row : Type := List (List Nat)

/-- Rust's `Ord` on byte slices: lexicographic, element-wise on unsigned
byte values, comparing lengths when one is a prefix of the other. -/
def cmpBytes : List Nat → List Nat → Ordering
  | [], [] => .eq
  | [], _ :: _ => .lt
  | _ :: _, [] => .gt
  | a :: as, b :: bs =>
      if a < b then .lt else if b < a then .gt else cmpBytes as bs

/-- The `Filter` enum from `search.rs`: `Eq(Regex)`, `Leq(&[u8])`,
`Geq(&[u8])`. -/
inductive Filter : Type
  | eq : RegexAst → Filter
  | leq : List Nat → Filter
  | geq : List Nat → Filter
deriving DecidableEq

namespace Filter

/-- `Filter::apply`: `Eq` runs the unanchored regex search on the field,
`Leq` tests `field <= bound`, `Geq` tests `field >= bound` (Rust slice
comparison, i.e. the three-way `cmpBytes` not being `gt` resp. `lt`). -/
def apply : Filter → List Nat → Bool
  | .eq pattern, field => isMatch pattern field
  | .leq bound, field =>
      match cmpBytes field bound with
      | .gt => false
      | _ => true
  | .geq bound, field =>
      match cmpBytes field bound with
      | .lt => false
      | _ => true

end Filter

/-- The configuration the core consumes, mirroring the `Args` struct of
`search.rs` plus the Selection already resolved by the external selector
compiler (`rconfig.selection(&headers)`): an ordered list of field
indices. -/
structure SearchArgs : Type where
  arg_regex : List Nat
  flag_no_headers : Bool
  flag_invert_match : Bool
  flag_ignore_case : Bool
  flag_greater_than : Bool
  flag_less_than : Bool
  sel : List Nat
deriving DecidableEq

/-- `sel.select(&record)`: the fields of the row at the Selection's
indices, in Selection order.  Index validity is the external
reader/selector contract; out-of-range indices yield the empty field
here (the source would panic, an explicit non-goal of robustness). -/
def selectFields (sel : List Nat) (row : Row) : List (List Nat) :=
  sel.map (fun i => row.getD i [])

/-- The per-row decision of the loop body: `sel.select(&record).any(|f|
filter.apply(f))`, negated once afterwards when `--invert-match` is
set. -/
def decision (f : Filter) (sel : List Nat) (invert : Bool) (row : Row) : Bool :=
  let m := (selectFields sel row).any (fun field => f.apply field)
  if invert then !m else m

/-- The `while rdr.read_byte_record(&mut record)` loop: each row whose
decision is true is written, whole, to the output, in input order. -/
def searchLoop (f : Filter) (sel : List Nat) (invert : Bool) : List Row → List Row
  | [] => []
  | r :: rs =>
      if decision f sel invert r then r :: searchLoop f sel invert rs
      else searchLoop f sel invert rs

/-- The filter selection `match (args.flag_greater_than,
args.flag_less_than)` from `search.rs`, verbatim. -/
def selectFilter (gt lt : Bool) (arg : List Nat) (rx : RegexAst) : Filter :=
  match gt, lt with
  | false, false => .eq rx
  | false, true => .leq arg
  | true, false => .geq arg
  | true, true => .eq rx

/-- The whole `run` function as a pure stream transformer: compile the
regex first (failure aborts the run before any I/O, `none`); then write
the header row unless `--no-headers`; choose the filter once; then run
the row loop.  The header row and data rows are what the external
reader produced; the returned list is the sequence of rows written. -/
def searchRun (args : SearchArgs) (headers : Row) (rows : List Row) : Option (List Row) :=
  match compileRegex args.arg_regex args.flag_ignore_case with
  | none => none
  | some rx =>
      let filter := selectFilter args.flag_greater_than args.flag_less_than
        args.arg_regex rx
      let headerOut : List Row := if args.flag_no_headers then [] else [headers]
      some (headerOut ++ searchLoop filter args.sel args.flag_invert_match rows)

/-- The spec's wording of byte-lexicographic order (§4.1): `xs ≤ ys`
when `xs` is a prefix of `ys` (shorter-is-less-if-prefix, equality
included) or the first differing byte of `xs` is the smaller unsigned
value (element-wise comparison). -/
def LexLe (xs ys : List Nat) : Prop :=
  xs <+: ys ∨ ∃ p a b as bs, a < b ∧ xs = p ++ a :: as ∧ ys = p ++ b :: bs

theorem searchLoop_eq_filter (f : Filter) (sel : List Nat) (invert : Bool)
    (rows : List Row) :
    searchLoop f sel invert rows = rows.filter (fun r => decision f sel invert r) := by
  induction rows with
  | nil => rfl
  | cons r rs ih =>
      by_cases h : decision f sel invert r = true <;>
        simp [searchLoop, List.filter_cons, h, ih]

theorem cmpBytes_swap (xs ys : List Nat) :
    cmpBytes ys xs = (cmpBytes xs ys).swap := by
  induction xs generalizing ys with
  | nil => cases ys <;> rfl
  | cons a as ih =>
      cases ys with
      | nil => rfl
      | cons b bs =>
          by_cases h1 : a < b
          · have h2 : ¬ b < a := Nat.lt_asymm h1
            simp [cmpBytes, h1, h2, Ordering.swap]
          · by_cases h2 : b < a
            · simp [cmpBytes, h1, h2, Ordering.swap]
            · simp [cmpBytes, h1, h2, ih]

theorem cmpBytes_ne_gt_iff (xs ys : List Nat) :
    cmpBytes xs ys ≠ Ordering.gt ↔ LexLe xs ys := by
  induction xs generalizing ys with
  | nil =>
      constructor
      · intro _
        exact Or.inl List.nil_prefix
      · intro _
        cases ys <;> simp [cmpBytes]
  | cons a as ih =>
      cases ys with
      | nil =>
          constructor
          · intro h
            exact absurd rfl h
          · rintro (hp | ⟨p, x, y, xs2, ys2, hxy, hx, hy⟩)
            · simpa using List.prefix_nil.mp hp
            · cases p <;> simp at hy
      | cons b bs =>
          by_cases h1 : a < b
          · constructor
            · intro _
              exact Or.inr ⟨[], a, b, as, bs, h1, rfl, rfl⟩
            · intro _
              simp [cmpBytes, h1]
          · by_cases h2 : b < a
            · constructor
              · intro h
                exact absurd (by simp [cmpBytes, h1, h2]) h
              · rintro (hp | ⟨p, x, y, xs2, ys2, hxy, hx, hy⟩)
                · have := (List.cons_prefix_cons.mp hp).1
                  omega
                · cases p with
                  | nil =>
                      simp only [List.nil_append, List.cons.injEq] at hx hy
                      omega
                  | cons c p2 =>
                      simp only [List.cons_append, List.cons.injEq] at hx hy
                      omega
            · have hab : a = b := Nat.le_antisymm (Nat.not_lt.mp h2) (Nat.not_lt.mp h1)
              subst hab
              have hstep : cmpBytes (a :: as) (a :: bs) = cmpBytes as bs := by
                simp [cmpBytes, h1, h2]
              rw [hstep]
              rw [ih bs]
              constructor
              · rintro (hp | ⟨p, x, y, xs2, ys2, hxy, hx, hy⟩)
                · exact Or.inl (List.cons_prefix_cons.mpr ⟨rfl, hp⟩)
                · exact Or.inr ⟨a :: p, x, y, xs2, ys2, hxy, by simp [hx], by simp [hy]⟩
              · rintro (hp | ⟨p, x, y, xs2, ys2, hxy, hx, hy⟩)
                · exact Or.inl (List.cons_prefix_cons.mp hp).2
                · cases p with
                  | nil =>
                      simp only [List.nil_append, List.cons.injEq] at hx hy
                      omega
                  | cons c p2 =>
                      simp only [List.cons_append, List.cons.injEq] at hx hy
                      exact Or.inr ⟨p2, x, y, xs2, ys2, hxy, hx.2, hy.2⟩

theorem matchHere_iff (r : RegexAst) (s : List Nat) :
    matchHere r s = true ↔ ∃ p q, s = p ++ q ∧ fullMatch r p = true := by
  induction s generalizing r with
  | nil =>
      constructor
      · intro h
        exact ⟨[], [], rfl, h⟩
      · rintro ⟨p, q, hpq, h⟩
        have hp : p = [] := by
          cases p <;> simp_all
        subst hp
        simpa [fullMatch, matchHere] using h
  | cons c rest ih =>
      constructor
      · intro h
        rcases Bool.or_eq_true_iff.mp h with h | h
        · exact ⟨[], c :: rest, rfl, h⟩
        · rcases (ih (rderiv r c)).mp h with ⟨p, q, hpq, hm⟩
          exact ⟨c :: p, q, by simp [hpq], hm⟩
      · rintro ⟨p, q, hpq, hm⟩
        cases p with
        | nil =>
            simp only [List.nil_append] at hpq
            subst hpq
            exact Bool.or_eq_true_iff.mpr (Or.inl hm)
        | cons c2 p2 =>
            simp only [List.cons_append, List.cons.injEq] at hpq
            rcases hpq with ⟨hc, hrest⟩
            subst hc
            refine Bool.or_eq_true_iff.mpr (Or.inr ?_)
            exact (ih (rderiv r c)).mpr ⟨p2, q, hrest, hm⟩

theorem isMatch_iff (r : RegexAst) (s : List Nat) :
    isMatch r s = true ↔ ∃ pre rest, s = pre ++ rest ∧ matchHere r rest = true := by
  induction s with
  | nil =>
      constructor
      · intro h
        exact ⟨[], [], rfl, h⟩
      · rintro ⟨pre, rest, hpr, h⟩
        have hp : pre = [] := by
          cases pre <;> simp_all
        subst hp
        simp only [List.nil_append] at hpr
        subst hpr
        simpa [isMatch, matchHere] using h
  | cons c rest ih =>
      constructor
      · intro h
        rcases Bool.or_eq_true_iff.mp h with h | h
        · exact ⟨[], c :: rest, rfl, h⟩
        · rcases ih.mp h with ⟨pre, rest2, hpr, hm⟩
          exact ⟨c :: pre, rest2, by simp [hpr], hm⟩
      · rintro ⟨pre, rest2, hpr, hm⟩
        cases pre with
        | nil =>
            simp only [List.nil_append] at hpr
            subst hpr
            exact Bool.or_eq_true_iff.mpr (Or.inl hm)
        | cons c2 pre2 =>
            simp only [List.cons_append, List.cons.injEq] at hpr
            rcases hpr with ⟨hc, hrest⟩
            subst hc
            exact Bool.or_eq_true_iff.mpr (Or.inr (ih.mpr ⟨pre2, rest2, hrest, hm⟩))

theorem searchRun_bound_mode (args : SearchArgs) (headers : Row) (rows : List Row)
    (h : args.flag_greater_than ≠ args.flag_less_than) :
    searchRun args headers rows
      = (parseRegex args.arg_regex).map
          (fun _ => (if args.flag_no_headers then [] else [headers])
            ++ searchLoop
                (if args.flag_less_than then Filter.leq args.arg_regex
                 else Filter.geq args.arg_regex)
                args.sel args.flag_invert_match rows) := by
  cases hp : parseRegex args.arg_regex with
  | none =>
      have hc : compileRegex args.arg_regex args.flag_ignore_case = none := by
        simp [compileRegex, hp]
      simp [searchRun, hc]
  | some rx =>
      have hc : compileRegex args.arg_regex args.flag_ignore_case
          = some (if args.flag_ignore_case then applyCI rx else rx) := by
        simp [compileRegex, hp]
      cases hg : args.flag_greater_than <;> cases hl : args.flag_less_than
      · rw [hg, hl] at h
        exact absurd rfl h
      · simp [searchRun, hc, selectFilter, hg, hl]
      · simp [searchRun, hc, selectFilter, hg, hl]
      · rw [hg, hl] at h
        exact absurd rfl h

/-- Claim C1: the row decision is the OR-reduction of the predicate
over the selected fields in Selection order — true as soon as some
selected field matches, false when none does — and invert-match negates
exactly that aggregate, once, after the reduction, without changing
which fields are examined. -/
theorem decision_or_reduction_invert (f : Filter) (sel : List Nat) (row : Row) :
    decision f sel true row = !decision f sel false row
    ∧ decision f sel false row = (selectFields sel row).any (fun field => f.apply field)
    ∧ (decision f sel false row = true ↔ ∃ i ∈ sel, f.apply (row.getD i []) = true) := by
  refine ⟨rfl, rfl, ?_⟩
  simp [decision, selectFields, List.any_map, List.any_eq_true]

/-- Claim C2: the filter-selection table of `run` — neither bound flag:
the regex compiled from the argument; only `--less-than`: `Leq` of the
argument's raw bytes; only `--greater-than`: `Geq` of the raw bytes;
both flags: fallback to the compiled regex, not an error — and the
choice happens once, before any row is processed: the whole run is one
filter, fixed from the flags and the once-compiled regex, applied to
the row stream. -/
theorem filter_selection_table (arg : List Nat) (rx : RegexAst)
    (args : SearchArgs) (headers : Row) (rows : List Row) :
    selectFilter false false arg rx = .eq rx
    ∧ selectFilter false true arg rx = .leq arg
    ∧ selectFilter true false arg rx = .geq arg
    ∧ selectFilter true true arg rx = .eq rx
    ∧ searchRun args headers rows
        = (compileRegex args.arg_regex args.flag_ignore_case).map
            (fun r => (if args.flag_no_headers then [] else [headers])
              ++ searchLoop
                  (selectFilter args.flag_greater_than args.flag_less_than
                    args.arg_regex r)
                  args.sel args.flag_invert_match rows) := by
  refine ⟨rfl, rfl, rfl, rfl, ?_⟩
  cases hc : compileRegex args.arg_regex args.flag_ignore_case <;>
    simp [searchRun, hc]

/-- Claim C3 counterexample: with only `--less-than` set and the
argument `(` — a byte string that does not compile as a regex — the run
aborts anyway (`run` compiles the regex unconditionally, before the
filter is chosen), refuting the claim that such a run is not aborted. -/
theorem bound_mode_malformed_aborts_cex :
    searchRun ⟨[40], false, false, false, false, true, [0]⟩
      [[104]] [[[97]]] = none := by decide

/-- Claim C3 amended: when exactly one bound-mode flag is set the
active predicate consumes the argument only as a raw byte-sequence
bound and the compiled regex never influences the output; however,
regex compilation is still attempted unconditionally, so an argument
that fails to compile as a regex aborts even a bound-mode run. -/
theorem bound_mode_raw_bytes_compile_gate (args : SearchArgs) (headers : Row)
    (rows : List Row) (h : args.flag_greater_than ≠ args.flag_less_than) :
    searchRun args headers rows
      = (compileRegex args.arg_regex args.flag_ignore_case).map
          (fun _ => (if args.flag_no_headers then [] else [headers])
            ++ searchLoop
                (if args.flag_less_than then Filter.leq args.arg_regex
                 else Filter.geq args.arg_regex)
                args.sel args.flag_invert_match rows) := by
  rw [searchRun_bound_mode args headers rows h]
  cases hp : parseRegex args.arg_regex <;> simp [compileRegex, hp]

theorem bound_mode_raw_bytes_compile_gate_witness :
    searchRun ⟨[98], false, false, false, false, true, [0]⟩ [[104]] [[[97]]]
      = (compileRegex [98] false).map
          (fun _ => [[[104]]] ++ searchLoop (Filter.leq [98]) [0] false [[[97]]]) := by
  simpa using
    bound_mode_raw_bytes_compile_gate
      ⟨[98], false, false, false, false, true, [0]⟩ [[104]] [[[97]]] (by decide)

/-- Claim C4: in regex mode a malformed pattern fails the run
immediately — compilation is attempted once, its failure surfaces
before any input row is consumed and nothing is written: the result is
the bare abort `none`, the same whatever the input stream holds. -/
theorem malformed_regex_fails_before_io (args : SearchArgs)
    (_hgt : args.flag_greater_than = false) (_hlt : args.flag_less_than = false)
    (hbad : parseRegex args.arg_regex = none) (headers : Row) (rows : List Row) :
    searchRun args headers rows = none
    ∧ ∀ (headers2 : Row) (rows2 : List Row),
        searchRun args headers rows = searchRun args headers2 rows2 := by
  have hc : compileRegex args.arg_regex args.flag_ignore_case = none := by
    simp [compileRegex, hbad]
  refine ⟨by simp [searchRun, hc], fun headers2 rows2 => ?_⟩
  simp [searchRun, hc]

theorem malformed_regex_fails_before_io_witness :
    searchRun ⟨[40], false, false, false, false, false, [0]⟩ [[104]] [[[97]]] = none
    ∧ ∀ (headers2 : Row) (rows2 : List Row),
        searchRun ⟨[40], false, false, false, false, false, [0]⟩ [[104]] [[[97]]]
          = searchRun ⟨[40], false, false, false, false, false, [0]⟩ headers2 rows2 :=
  malformed_regex_fails_before_io
    ⟨[40], false, false, false, false, false, [0]⟩ rfl rfl (by decide) [[104]] [[[97]]]

/-- Claim C5: `Leq` returns `field <= bound` and `Geq` returns
`field >= bound` under byte-lexicographic unsigned ordering —
element-wise on the first differing byte, with a proper prefix counting
as smaller — and the order is byte-wise and non-locale-aware: the field
`B` satisfies `Leq` with bound `a`. -/
theorem lex_bound_byte_order (field bound : List Nat) :
    (Filter.apply (.leq bound) field = true ↔ LexLe field bound)
    ∧ (Filter.apply (.geq bound) field = true ↔ LexLe bound field)
    ∧ Filter.apply (.leq [97]) [66] = true := by
  refine ⟨?_, ?_, by decide⟩
  · have happ : Filter.apply (.leq bound) field = true
        ↔ cmpBytes field bound ≠ Ordering.gt := by
      cases h : cmpBytes field bound <;> simp [Filter.apply, h]
    rw [happ, cmpBytes_ne_gt_iff]
  · have happ : Filter.apply (.geq bound) field = true
        ↔ cmpBytes field bound ≠ Ordering.lt := by
      cases h : cmpBytes field bound <;> simp [Filter.apply, h]
    rw [happ, ← cmpBytes_ne_gt_iff, cmpBytes_swap field bound]
    cases h : cmpBytes field bound <;> simp [h, Ordering.swap]

/-- Claim C6: the regex predicate has substring-search semantics — for
every field it holds exactly when some decomposition `pre ++ mid ++
suf` of the field has the pattern matching `mid` in full — and it is
not an anchored full match: the pattern `ab` matches the field `xaby`
although its anchored match on that field is false.  Evaluation is a
pure Boolean function with no error outcome. -/
theorem regex_substring_search :
    (∀ (r : RegexAst) (s : List Nat),
        isMatch r s = true
          ↔ ∃ pre mid suf, s = pre ++ mid ++ suf ∧ fullMatch r mid = true)
    ∧ (∃ r, parseRegex [97, 98] = some r
        ∧ Filter.apply (.eq r) [120, 97, 98, 121] = true
        ∧ fullMatch r [120, 97, 98, 121] = false) := by
  constructor
  · intro r s
    rw [isMatch_iff]
    constructor
    · rintro ⟨pre, rest, hpr, hm⟩
      rcases (matchHere_iff r rest).mp hm with ⟨mid, suf, hms, hf⟩
      exact ⟨pre, mid, suf, by rw [hpr, hms, List.append_assoc], hf⟩
    · rintro ⟨pre, mid, suf, hs, hf⟩
      refine ⟨pre, mid ++ suf, by rw [hs, List.append_assoc], ?_⟩
      exact (matchHere_iff r (mid ++ suf)).mpr ⟨mid, suf, rfl, hf⟩
  · exact ⟨.cat (.cat .eps (.chr 97)) (.chr 98), by decide, by decide, by decide⟩

/-- Claim C7: a data row whose decision is true is forwarded whole to
the output — the very row, every field in original order and count,
byte-identical — whatever subset of fields the Selection restricted
evaluation to; and every output row is literally an input row, so rows
are never rewritten or truncated to the selection. -/
theorem full_row_forwarded (f : Filter) (sel : List Nat) (invert : Bool)
    (rows : List Row) (r : Row) (hmem : r ∈ rows)
    (hdec : decision f sel invert r = true) :
    r ∈ searchLoop f sel invert rows
    ∧ ∀ q ∈ searchLoop f sel invert rows, q ∈ rows := by
  rw [searchLoop_eq_filter]
  exact ⟨List.mem_filter.mpr ⟨hmem, hdec⟩, fun q hq => (List.mem_filter.mp hq).1⟩

theorem full_row_forwarded_witness :
    [[102, 111, 111], [98, 97, 114]]
        ∈ searchLoop (Filter.leq [98, 97, 122]) [1] false
            [[[102, 111, 111], [98, 97, 114]]]
    ∧ ∀ q ∈ searchLoop (Filter.leq [98, 97, 122]) [1] false
            [[[102, 111, 111], [98, 97, 114]]],
        q ∈ [[[102, 111, 111], [98, 97, 114]]] :=
  full_row_forwarded (Filter.leq [98, 97, 122]) [1] false
    [[[102, 111, 111], [98, 97, 114]]] [[102, 111, 111], [98, 97, 114]]
    (by decide) (by decide)

/-- Claim C8: with headers enabled the header row is written exactly
once, first, unconditionally — never evaluated against the predicate,
whatever the filter, selection or invert flag — and with headers
disabled no header row is written: the output is the header consed onto,
respectively exactly, the filtered data rows. -/
theorem header_unconditional_passthrough (args : SearchArgs) (headers : Row)
    (rows : List Row) :
    searchRun { args with flag_no_headers := false } headers rows
      = (compileRegex args.arg_regex args.flag_ignore_case).map
          (fun rx => headers
            :: searchLoop
                (selectFilter args.flag_greater_than args.flag_less_than
                  args.arg_regex rx)
                args.sel args.flag_invert_match rows)
    ∧ searchRun { args with flag_no_headers := true } headers rows
      = (compileRegex args.arg_regex args.flag_ignore_case).map
          (fun rx => searchLoop
              (selectFilter args.flag_greater_than args.flag_less_than
                args.arg_regex rx)
              args.sel args.flag_invert_match rows) := by
  cases hc : compileRegex args.arg_regex args.flag_ignore_case <;>
    simp [searchRun, hc]

/-- Claim C9: with exactly one bound-mode flag set, the output is
identical whether or not ignore-case is set — case folding is baked
only into the compiled regex, which bound comparisons never consult, so
the ignore-case flag cannot influence a bound comparison. -/
theorem ignore_case_no_influence_in_bound_mode (args : SearchArgs)
    (headers : Row) (rows : List Row)
    (h : args.flag_greater_than ≠ args.flag_less_than) :
    searchRun { args with flag_ignore_case := true } headers rows
      = searchRun { args with flag_ignore_case := false } headers rows := by
  rw [searchRun_bound_mode { args with flag_ignore_case := true } headers rows
      (by simpa using h)]
  rw [searchRun_bound_mode { args with flag_ignore_case := false } headers rows
      (by simpa using h)]

theorem ignore_case_no_influence_in_bound_mode_witness :
    searchRun ⟨[66], false, false, true, true, false, [0]⟩ [[104]] [[[97]]]
      = searchRun ⟨[66], false, false, false, true, false, [0]⟩ [[104]] [[[97]]] := by
  simpa using
    ignore_case_no_influence_in_bound_mode
      ⟨[66], false, false, false, true, false, [0]⟩ [[104]] [[[97]]] (by decide)

/-- Claim C10: a successful run writes, after the optional header
passthrough, exactly the input data rows whose decision is true, each
occurrence at most once and in input order: the data-row part of the
output is the decision-filter of the input rows and an ordered sublist
of them, so no row absent from the input is ever emitted. -/
theorem output_filter_subsequence (args : SearchArgs) (headers : Row)
    (rows out : List Row) (h : searchRun args headers rows = some out) :
    ∃ rx, compileRegex args.arg_regex args.flag_ignore_case = some rx
      ∧ out = (if args.flag_no_headers then [] else [headers])
          ++ rows.filter (fun r =>
              decision
                (selectFilter args.flag_greater_than args.flag_less_than
                  args.arg_regex rx)
                args.sel args.flag_invert_match r)
      ∧ (rows.filter (fun r =>
            decision
              (selectFilter args.flag_greater_than args.flag_less_than
                args.arg_regex rx)
              args.sel args.flag_invert_match r)).Sublist rows := by
  cases hc : compileRegex args.arg_regex args.flag_ignore_case with
  | none => simp [searchRun, hc] at h
  | some rx =>
      refine ⟨rx, rfl, ?_, List.filter_sublist rows⟩
      rw [← searchLoop_eq_filter]
      simp only [searchRun, hc] at h
      exact (Option.some.inj h).symm

theorem output_filter_subsequence_witness :
    ∃ rx, compileRegex [98, 97] false = some rx
      ∧ [[[104]], [[98, 97, 122]]]
          = (if false then ([] : List Row) else [[[104]]])
            ++ [[[98, 97, 122]], [[102]]].filter (fun r =>
                decision (selectFilter false false [98, 97] rx) [0] false r)
      ∧ ([[[98, 97, 122]], [[102]]].filter (fun r =>
            decision (selectFilter false false [98, 97] rx) [0] false r)).Sublist
          [[[98, 97, 122]], [[102]]] := by
  simpa using
    output_filter_subsequence ⟨[98, 97], false, false, false, false, false, [0]⟩
      [[104]] [[[98, 97, 122]], [[102]]] [[[104]], [[98, 97, 122]]] (by decide)

end Xsv
